import Mathlib

/-!
Verification of the `randomize` pseudo-random number generator crate.

The Rust sources are shallowly embedded: machine integers (`u32`, `u64`) become
`Nat` with explicit reduction `% 2 ^ 32` / `% 2 ^ 64` wherever the source uses
wrapping arithmetic, mutable generator state becomes explicit state passing,
code that can panic returns `Option` (with `none` modelling the panic), and
unbounded sampling loops take an explicit fuel argument (with `none` also
modelling fuel exhaustion, which corresponds to the loop not having terminated
within that many iterations).
-/

/-! ## `src/formulas.rs` -/

/-- `lcg64_step` from formulas.rs: `state.wrapping_mul(mul).wrapping_add(add)`. -/
def lcg64_step (mul add state : Nat) : Nat :=
  (state * mul % 2 ^ 64 + add) % 2 ^ 64

/-- The `while delta > 0` loop of `lcg64_jump` from formulas.rs.  Returns the
accumulated affine pair `(acc_mult, acc_plus)`.  `(delta & 1) > 0` is written
`delta % 2 = 1`. -/
def lcg64_jump_loop (curMult curPlus accMult accPlus delta : Nat) : Nat × Nat :=
  if h : delta = 0 then (accMult, accPlus)
  else
    let accMult2 := if delta % 2 = 1 then accMult * curMult % 2 ^ 64 else accMult
    let accPlus2 := if delta % 2 = 1 then (accPlus * curMult % 2 ^ 64 + curPlus) % 2 ^ 64
      else accPlus
    lcg64_jump_loop (curMult * curMult % 2 ^ 64) ((curMult + 1) % 2 ^ 64 * curPlus % 2 ^ 64)
      accMult2 accPlus2 (delta / 2)
termination_by delta
decreasing_by exact Nat.div_lt_self (Nat.pos_of_ne_zero h) one_lt_two

/-- `lcg64_jump` from formulas.rs: advance an LCG by `delta` steps in
`log2(delta)` time. -/
def lcg64_jump (mul add state delta : Nat) : Nat :=
  let p := lcg64_jump_loop mul add 1 0 delta
  (state * p.1 % 2 ^ 64 + p.2) % 2 ^ 64

/-- `u32::rotate_right` on a value `x < 2 ^ 32`; the rotation amount is reduced
mod 32 as Rust does. -/
def u32_rotate_right (x n : Nat) : Nat :=
  ((x >>> (n % 32)) ||| (x <<< (32 - n % 32))) % 2 ^ 32

/-- `xsh_rr_u64_to_u32` from formulas.rs, keeping the bit-width-derived shift
amounts `64 - 5`, `(32 + 5) / 2` and `32 - 5` of the source.  The `as u32`
casts are `% 2 ^ 32`. -/
def xsh_rr_u64_to_u32 (state : Nat) : Nat :=
  let rot_amount := (state >>> (64 - 5)) % 2 ^ 32
  let xor_shifted := state ^^^ (state >>> ((32 + 5) / 2))
  let kept_bits := (xor_shifted >>> (32 - 5)) % 2 ^ 32
  u32_rotate_right kept_bits rot_amount

/-! ## `src/pcg32.rs` -/

/-- `PCG_MULTIPLIER_64` from pcg32.rs. -/
def PCG_MULTIPLIER_64 : Nat := 6364136223846793005

/-- The `xsh_rr_u64_to_u32!` macro from pcg32.rs, with its fixed shift
constants `18`, `27`, `59`:
`(((($state >> 18) ^ $state) >> 27) as u32).rotate_right(($state >> 59) as u32)`. -/
def xsh_rr_u64_to_u32_macro (state : Nat) : Nat :=
  u32_rotate_right ((((state >>> 18) ^^^ state) >>> 27) % 2 ^ 32) ((state >>> 59) % 2 ^ 32)

/-- The `pcg_core_state64!` macro from pcg32.rs:
`$state.wrapping_mul(PCG_MULTIPLIER_64).wrapping_add($inc)`. -/
def pcg_core_state64 (state inc : Nat) : Nat :=
  (state * PCG_MULTIPLIER_64 % 2 ^ 64 + inc) % 2 ^ 64

/-- The `Pcg32` struct from pcg32.rs. -/
structure Pcg32 where
  state : Nat
  inc : Nat

/-- `Pcg32::next_u32` from pcg32.rs: the output is the permutation of the old
state, computed before the state advances. -/
def Pcg32.next_u32 (g : Pcg32) : Nat × Pcg32 :=
  let out := xsh_rr_u64_to_u32_macro g.state
  (out, ⟨pcg_core_state64 g.state g.inc, g.inc⟩)

/-! ## `src/pcg.rs` -/

/-- Modelled from the spec: `PCG_MUL_64` is imported by pcg.rs from
`crate::formulas`, but its definition is not present in the available sources.
The spec fixes the multiplier as "the canonical value `6364136223846793005`",
which also matches `PCG32_MUL` in lib.rs and `PCG_MULTIPLIER_64` in pcg32.rs. -/
def PCG_MUL_64 : Nat := 6364136223846793005

/-- The `PCG32` struct from pcg.rs. -/
structure PCG32 where
  state : Nat
  inc : Nat

/-- `PCG32::next_u32` from pcg.rs: `new_state` is computed first, the output
permutation is applied to the still-unchanged `self.state`, then the state is
overwritten. -/
def PCG32.next_u32 (g : PCG32) : Nat × PCG32 :=
  let new_state := lcg64_step PCG_MUL_64 g.inc g.state
  let out := xsh_rr_u64_to_u32 g.state
  (out, ⟨new_state, g.inc⟩)

/-- `PCG32::jump` from pcg.rs. -/
def PCG32.jump (g : PCG32) (delta : Nat) : PCG32 :=
  ⟨lcg64_jump PCG_MUL_64 g.inc g.state delta, g.inc⟩

/-- The `PCG32K<K>` struct from pcg.rs, with the extension array `[u32; K]`
modelled as a list of length `K`. -/
structure PCG32K where
  state : Nat
  ext : List Nat

/-- The carry propagation `for` loop inside `PCG32K::ext_add` (over
`&mut self.ext[1..]`): add 1 to each element in turn, continuing exactly while
the addition overflows (`overflowing_add` on `u32`). -/
def extCarryLoop : List Nat → List Nat
  | [] => []
  | x :: xs =>
    if 2 ^ 32 ≤ x + 1 then (x + 1) % 2 ^ 32 :: extCarryLoop xs
    else (x + 1) % 2 ^ 32 :: xs

/-- `PCG32K::ext_add` from pcg.rs: add `delta` to `ext[0]` with
`overflowing_add`; on carry, propagate `+1` through the higher digits until an
addition does not overflow.  `K == 0` returns immediately. -/
def PCG32K.ext_add (ext : List Nat) (delta : Nat) : List Nat :=
  match ext with
  | [] => []
  | x :: xs =>
    if 2 ^ 32 ≤ x + delta then (x + delta) % 2 ^ 32 :: extCarryLoop xs
    else (x + delta) % 2 ^ 32 :: xs

/-- `PCG32K::next_u32` from pcg.rs.  The `K > 0` branch indexes the extension
array at `self.state as usize % K`; the indexing is modelled with `List.get?`,
`none` modelling an out-of-bounds panic (which the proofs show never happens).
The extension array is advanced when the *old* state is 0, and the returned
output was computed before that advance. -/
def PCG32K.next_u32 (g : PCG32K) : Option (Nat × PCG32K) :=
  let new_state := lcg64_step PCG_MUL_64 1 g.state
  if g.ext.length ≠ 0 then
    match g.ext.get? (g.state % g.ext.length) with
    | none => none
    | some e =>
      let out := xsh_rr_u64_to_u32 g.state ^^^ e
      let ext2 := if g.state = 0 then PCG32K.ext_add g.ext 1 else g.ext
      some (out, ⟨new_state, ext2⟩)
  else
    some (xsh_rr_u64_to_u32 g.state, ⟨new_state, g.ext⟩)

/-! ## `src/lib.rs` -/

/-- `PCG32_MUL` from lib.rs. -/
def PCG32_MUL : Nat := 6364136223846793005

/-- The `PCG32X<K>` struct from lib.rs. -/
structure PCG32X where
  state : Nat
  inc : Nat
  ext : List Nat

/-- The `while carry && i < K` loop of `PCG32X::next_u32` from lib.rs: starting
with `carry = true`, add 1 to each element in turn while the `overflowing_add`
carries. -/
def pcg32xCarryLoop : List Nat → List Nat
  | [] => []
  | x :: xs =>
    if 2 ^ 32 ≤ x + 1 then (x + 1) % 2 ^ 32 :: pcg32xCarryLoop xs
    else (x + 1) % 2 ^ 32 :: xs

/-- `PCG32X::next_u32` from lib.rs.  Unlike `PCG32K::next_u32` there is no
`K > 0` guard: the source computes `self.state as usize % K` unconditionally,
which for `K == 0` is a remainder by zero and panics (modelled as `none`); the
array indexing `self.ext[ext_index]` is modelled with `List.get?` likewise.
Also unlike `PCG32K`, the carry condition tests the *new* state against 0. -/
def PCG32X.next_u32 (g : PCG32X) : Option (Nat × PCG32X) :=
  let new_state := lcg64_step PCG32_MUL g.inc g.state
  if g.ext.length = 0 then none
  else
    match g.ext.get? (g.state % g.ext.length) with
    | none => none
    | some e =>
      let out := xsh_rr_u64_to_u32 g.state ^^^ e
      let ext2 := if new_state = 0 then pcg32xCarryLoop g.ext else g.ext
      some (out, ⟨new_state, g.inc, ext2⟩)

/-- `u32::wrapping_neg`. -/
def u32_wrapping_neg (x : Nat) : Nat :=
  (2 ^ 32 - x % 2 ^ 32) % 2 ^ 32

/-- The `BoundedRandU32` struct from lib.rs. -/
structure BoundedRandU32 where
  count : Nat
  threshold : Nat

/-- `BoundedRandU32::new` from lib.rs:
`threshold = count.wrapping_neg() % count`.  (In Rust `% 0` panics, so this is
only ever invoked with `count > 0`; `try_new` guards the zero case.) -/
def BoundedRandU32.new (count : Nat) : BoundedRandU32 :=
  ⟨count, u32_wrapping_neg count % count⟩

/-- `BoundedRandU32::try_new` from lib.rs. -/
def BoundedRandU32.try_new (count : Nat) : Option BoundedRandU32 :=
  if 0 < count then some (BoundedRandU32.new count) else none

/-- `BoundedRandU32::place_in_range` from lib.rs: the 64-bit product of the
sample and the count; reject when the low 32 bits fall below the threshold,
otherwise return the high 32 bits. -/
def BoundedRandU32.place_in_range (b : BoundedRandU32) (val : Nat) : Option Nat :=
  let mul := val * b.count % 2 ^ 64
  let low_part := mul % 2 ^ 32
  if low_part < b.threshold then none else some (mul >>> 32)

/-! ## `src/gen32.rs` -/

/-- The `while low < threshold` resampling loop of `Gen32::next_bounded` from
gen32.rs.  The abstract `Gen32` source is modelled as a stream
`Nat → Nat` of `u32` words read at successive positions; `fuel` bounds the
number of further draws, `none` meaning the loop had not yet accepted a
sample. -/
def gen32NextBoundedLoop (stream : Nat → Nat) (b threshold pos fuel : Nat) : Option Nat :=
  match fuel with
  | 0 => none
  | fuel + 1 =>
    let x := stream pos % 2 ^ 32
    let mul := b * x % 2 ^ 64
    let low := mul % 2 ^ 32
    if low < threshold then gen32NextBoundedLoop stream b threshold (pos + 1) fuel
    else some (mul >>> 32)

/-- `Gen32::next_bounded` from gen32.rs.  The `assert!(b != 0)` panic is
modelled as `none`.  The first draw is accepted outright when
`low >= b` (and hence `low >= threshold`); otherwise the threshold is computed
and the resampling loop runs. -/
def Gen32.next_bounded (stream : Nat → Nat) (b : Nat) (fuel : Nat) : Option Nat :=
  if b = 0 then none
  else
    let x := stream 0 % 2 ^ 32
    let mul := b * x % 2 ^ 64
    let low := mul % 2 ^ 32
    if low < b then
      let threshold := u32_wrapping_neg b % b
      if low < threshold then gen32NextBoundedLoop stream b threshold 1 fuel
      else some (mul >>> 32)
    else some (mul >>> 32)

/-! ## `src/free_utils.rs` -/

/-- `u32::trailing_zeros`, computed by examining at most 32 low bits; returns
32 on input 0 as Rust does. -/
def u32TrailingZerosAux : Nat → Nat → Nat
  | 0, _ => 0
  | fuel + 1, r => if r % 2 = 1 then 0 else 1 + u32TrailingZerosAux fuel (r / 2)

/-- `u32::trailing_zeros` for `r < 2 ^ 32`. -/
def u32_trailing_zeros (r : Nat) : Nat := u32TrailingZerosAux 32 r

/-- `next_binary_exp_distr32` from free_utils.rs: draw words from the stream,
adding 32 for each all-zero word, until a nonzero word supplies its trailing
zero count.  Returns the value together with the next unread stream position;
`fuel` bounds the number of draws. -/
def next_binary_exp_distr32 (stream : Nat → Nat) (pos : Nat) : Nat → Option (Nat × Nat)
  | 0 => none
  | fuel + 1 =>
    let r := stream pos % 2 ^ 32
    if r = 0 then
      match next_binary_exp_distr32 stream (pos + 1) fuel with
      | none => none
      | some (v, p) => some (32 + v, p)
    else some (u32_trailing_zeros r, pos + 1)

/-- The `while exponent < -exponent_bias || exponent > 0` regeneration loop of
`ieee754_random_f32` from free_utils.rs: while the exponent is invalid,
recompute it as `-1 + increment_exponent - next_binary_exp_distr32(..)`. -/
def ieee754RegenLoop (stream : Nat → Nat) (incExp : Int) (pos : Nat) (e : Int) :
    Nat → Option Int
  | 0 => if e < -127 ∨ 0 < e then none else some e
  | fuel + 1 =>
    if e < -127 ∨ 0 < e then
      match next_binary_exp_distr32 stream pos fuel with
      | none => none
      | some (v, p) => ieee754RegenLoop stream incExp p (-1 + incExp - (v : Int)) fuel
    else some e

/-- `ieee754_random_f32` from free_utils.rs, returning the assembled IEEE-754
single-precision *bit pattern* (the Rust source ends with `f32::from_bits`;
the numeric value of a bit pattern is given by `f32_val` below).  With
`bit_width = 32`, `exponent_bias = 127` and `num_mantissa_bits = 23` the
source's derived constants are evaluated: `num_rest_bits` is 7 when `signed`
and 8 otherwise, and the mantissa shift `bit_width - num_mantissa_bits` is 9. -/
def ieee754_random_f32 (stream : Nat → Nat) (signed : Bool) (fuel : Nat) : Option Nat :=
  let num_rest_bits : Nat := if signed then 7 else 8
  let r := stream 0 % 2 ^ 32
  let mantissa := r >>> 9
  let sign_mask := if signed then r <<< 31 % 2 ^ 32 else 0
  let rand_bit : Bool := if signed then r &&& 2 != 0 else r &&& 1 != 0
  let rest_bits := if signed then (r >>> 2) &&& (2 ^ 7 - 1) else (r >>> 1) &&& (2 ^ 8 - 1)
  let increment_exponent : Int := if mantissa = 0 ∧ rand_bit then 1 else 0
  let first : Option (Int × Nat) :=
    if 0 < rest_bits then some ((u32_trailing_zeros rest_bits : Int), 1)
    else
      match next_binary_exp_distr32 stream 1 fuel with
      | none => none
      | some (v, p) => some ((num_rest_bits : Int) + (v : Int), p)
  match first with
  | none => none
  | some (crb, pos) =>
    match ieee754RegenLoop stream increment_exponent pos (-1 + increment_exponent - crb) fuel with
    | none => none
    | some e => some (sign_mask ||| ((e + 127).toNat <<< 23) ||| mantissa)

/-- The numeric value of an IEEE-754 single-precision bit pattern as a rational
number: sign bit, 8 exponent bits, 23 mantissa bits; a zero exponent field is a
subnormal `m * 2 ^ (-149)`, a nonzero field `E` is `(2 ^ 23 + m) * 2 ^ (E - 150)`.
(The exponent field 255, infinity/NaN, never arises from the generator.) -/
def f32_val (bits : Nat) : ℚ :=
  let s : Nat := bits / 2 ^ 31 % 2
  let E : Nat := bits / 2 ^ 23 % 2 ^ 8
  let m : Nat := bits % 2 ^ 23
  let mag : ℚ := if E = 0 then (m : ℚ) / 2 ^ 149 else ((2 ^ 23 + m : Nat) : ℚ) * 2 ^ E / 2 ^ 150
  if s = 1 then -mag else mag

/-- `Gen32::next_f32_unit` from gen32.rs (the default method):
`ieee754_random_f32(self, true)`. -/
def Gen32.next_f32_unit (stream : Nat → Nat) (fuel : Nat) : Option Nat :=
  ieee754_random_f32 stream true fuel

/-- `Gen32::next_f32_signed_unit` from gen32.rs (the default method):
`ieee754_random_f32(self, false)`. -/
def Gen32.next_f32_signed_unit (stream : Nat → Nat) (fuel : Nat) : Option Nat :=
  ieee754_random_f32 stream false fuel

/-! ## Theorems -/

/-- C8: the bit-width-derived permutation `xsh_rr_u64_to_u32` of formulas.rs
and the fixed-constant `xsh_rr_u64_to_u32!` macro of pcg32.rs are
extensionally equal. -/
theorem xsh_rr_formula_macro_agree (state : Nat) :
    xsh_rr_u64_to_u32 state = xsh_rr_u64_to_u32_macro state := by
  simp [xsh_rr_u64_to_u32, xsh_rr_u64_to_u32_macro, Nat.xor_comm]

/-- C2: `next_u32` of pcg.rs `PCG32` and of pcg32.rs `Pcg32` return the output
permutation of the pre-transition state and advance the state by one LCG step
of that same old state, leaving `inc` unchanged. -/
theorem pcg32_next_u32_uses_pre_transition_state (g : PCG32) (p : Pcg32) :
    (PCG32.next_u32 g).1 = xsh_rr_u64_to_u32 g.state ∧
    (PCG32.next_u32 g).2.state = lcg64_step PCG_MUL_64 g.inc g.state ∧
    (PCG32.next_u32 g).2.inc = g.inc ∧
    (Pcg32.next_u32 p).1 = xsh_rr_u64_to_u32_macro p.state ∧
    (Pcg32.next_u32 p).2.state = pcg_core_state64 p.state p.inc ∧
    (Pcg32.next_u32 p).2.inc = p.inc :=
  ⟨rfl, rfl, rfl, rfl, rfl, rfl⟩

/-- The carry loop zeroes a maximal run of `u32::MAX` digits and then
increments the first digit that does not overflow, leaving the rest alone. -/
theorem extCarryLoop_replicate (j d : Nat) (rest : List Nat) (hd : d < 2 ^ 32 - 1) :
    extCarryLoop (List.replicate j (2 ^ 32 - 1) ++ d :: rest)
      = List.replicate j 0 ++ (d + 1) :: rest := by
  induction j with
  | zero =>
    simp only [List.replicate, List.nil_append, extCarryLoop]
    rw [if_neg (by omega), Nat.mod_eq_of_lt (by omega)]
  | succ j ih =>
    rw [List.replicate_succ, List.cons_append, List.replicate_succ]
    simp only [extCarryLoop]
    rw [if_pos (by omega), ih]
    norm_num

/-- C7: `PCG32K::ext_add` is little-endian multi-word increment with carry
stopping at the first non-overflowing digit: the two concrete cases of the
source's `test_ext_add`, and the general carry-chain shape for `ext_add(1)`. -/
theorem ext_add_little_endian_carry :
    PCG32K.ext_add [2 ^ 32 - 1, 0] 1 = [0, 1] ∧
    PCG32K.ext_add [2 ^ 32 - 1, 2 ^ 32 - 1, 0] 1 = [0, 0, 1] ∧
    ∀ j d rest, d < 2 ^ 32 - 1 →
      PCG32K.ext_add (List.replicate j (2 ^ 32 - 1) ++ d :: rest) 1
        = List.replicate j 0 ++ (d + 1) :: rest := by
  refine ⟨by decide, by decide, ?_⟩
  intro j d rest hd
  cases j with
  | zero =>
    simp only [List.replicate, List.nil_append, PCG32K.ext_add]
    rw [if_neg (by omega), Nat.mod_eq_of_lt (by omega)]
  | succ j =>
    rw [List.replicate_succ, List.cons_append, List.replicate_succ]
    simp only [PCG32K.ext_add]
    rw [if_pos (by omega), extCarryLoop_replicate j d rest hd]
    norm_num

/-- C7 witness: the general carry-chain shape at `j = 1`, `d = 5`,
`rest = [7]`. -/
theorem ext_add_little_endian_carry_witness :
    (5 : Nat) < 2 ^ 32 - 1 ∧
    PCG32K.ext_add (List.replicate 1 (2 ^ 32 - 1) ++ 5 :: [7]) 1
      = List.replicate 1 0 ++ 6 :: [7] :=
  ⟨by norm_num, ext_add_little_endian_carry.2.2 1 5 [7] (by norm_num)⟩

/-- C9: a zero bound is rejected at the API boundary: `try_new` returns `none`
exactly on `count = 0`; any successfully constructed descriptor has
`threshold < count`; and `Gen32::next_bounded` with bound 0 fails (the
`assert!`, modelled as `none`) whatever the source and fuel. -/
theorem bounded_zero_count_rejected :
    (∀ c, BoundedRandU32.try_new c = none ↔ c = 0) ∧
    (∀ c, 0 < c → (BoundedRandU32.new c).threshold < c) ∧
    (∀ c b, BoundedRandU32.try_new c = some b →
      b = BoundedRandU32.new c ∧ b.threshold < b.count) ∧
    (∀ stream fuel, Gen32.next_bounded stream 0 fuel = none) := by
  have hthr : ∀ c, 0 < c → (BoundedRandU32.new c).threshold < c := by
    intro c hc
    exact Nat.mod_lt _ hc
  refine ⟨?_, hthr, ?_, ?_⟩
  · intro c
    unfold BoundedRandU32.try_new
    split
    · simp only [reduceCtorEq, false_iff]
      omega
    · simp only [true_iff]
      omega
  · intro c b hb
    unfold BoundedRandU32.try_new at hb
    split at hb
    · cases hb
      exact ⟨rfl, hthr c (by assumption)⟩
    · cases hb
  · intro stream fuel
    simp [Gen32.next_bounded]

/-- C9 witness: concrete instances of each conjunct. -/
theorem bounded_zero_count_rejected_witness :
    (BoundedRandU32.try_new 0 = none ↔ (0 : Nat) = 0) ∧
    (BoundedRandU32.new 6).threshold < 6 ∧
    Gen32.next_bounded (fun k => k) 0 10 = none :=
  ⟨bounded_zero_count_rejected.1 0,
   bounded_zero_count_rejected.2.1 6 (by norm_num),
   bounded_zero_count_rejected.2.2.2 (fun k => k) 10⟩

/-- C3: for a descriptor built from `count > 0`, `place_in_range val` accepts
(returning the high 32 bits of the 64-bit product `val * count`) exactly when
the low 32 bits of the product reach the threshold, and every accepted output
is strictly below `count`. -/
theorem place_in_range_accept_iff_threshold (count val : Nat)
    (hc : 0 < count) (hcw : count < 2 ^ 32) (hv : val < 2 ^ 32) :
    ((BoundedRandU32.new count).place_in_range val = some (val * count / 2 ^ 32) ↔
      (BoundedRandU32.new count).threshold ≤ val * count % 2 ^ 32) ∧
    ∀ h, (BoundedRandU32.new count).place_in_range val = some h → h < count := by
  have hmul : val * count < 2 ^ 64 := by
    calc val * count < 2 ^ 32 * 2 ^ 32 := Nat.mul_lt_mul_of_lt_of_lt hv hcw
    _ = 2 ^ 64 := by norm_num
  have hhi : val * count / 2 ^ 32 < count := by
    rw [Nat.div_lt_iff_lt_mul (by positivity)]
    calc val * count < 2 ^ 32 * count := by
          exact Nat.mul_lt_mul_of_lt_of_le hv (le_refl count) hc
    _ = count * 2 ^ 32 := Nat.mul_comm _ _
  simp only [BoundedRandU32.place_in_range, BoundedRandU32.new, Nat.mod_eq_of_lt hmul,
    Nat.shiftRight_eq_div_pow]
  split
  · constructor
    · simp only [reduceCtorEq, false_iff]
      omega
    · intro h hsome
      cases hsome
  · constructor
    · simp only [true_iff]
      omega
    · intro h hsome
      cases hsome
      exact hhi

/-- C3 witness: `count = 6`, `val = 7`. -/
theorem place_in_range_accept_iff_threshold_witness :
    ((BoundedRandU32.new 6).place_in_range 7 = some (7 * 6 / 2 ^ 32) ↔
      (BoundedRandU32.new 6).threshold ≤ 7 * 6 % 2 ^ 32) ∧
    ∀ h, (BoundedRandU32.new 6).place_in_range 7 = some h → h < 6 :=
  place_in_range_accept_iff_threshold 6 7 (by norm_num) (by norm_num) (by norm_num)

/-- C5 counterexample: lib.rs `PCG32X::next_u32` with `K = 0` computes
`self.state as usize % K`, a remainder by zero, and panics (modelled `none`):
the claim that `next_u32` completes without failure for every extension-array
size, including `K = 0`, fails on `PCG32X`. -/
theorem pcg32x_next_u32_panics_on_empty_ext :
    PCG32X.next_u32 ⟨0, 0, []⟩ = none := rfl

/-- C5 (amended): pcg.rs `PCG32K::next_u32` never fails for any `K` (its
extension index is always in bounds), and at `K = 0` it degenerates to the
basic generator output with no extension lookup and no carry logic; lib.rs
`PCG32X::next_u32` never fails provided `K > 0`. -/
theorem pcg32k_total_and_k0_degenerates :
    (∀ g : PCG32K, (PCG32K.next_u32 g).isSome) ∧
    (∀ g : PCG32K, g.ext = [] →
      PCG32K.next_u32 g
        = some (xsh_rr_u64_to_u32 g.state, ⟨lcg64_step PCG_MUL_64 1 g.state, g.ext⟩)) ∧
    (∀ g : PCG32X, g.ext ≠ [] → (PCG32X.next_u32 g).isSome) := by
  refine ⟨?_, ?_, ?_⟩
  · intro g
    by_cases hlen : g.ext.length = 0
    · simp [PCG32K.next_u32, hlen]
    · have hidx : g.state % g.ext.length < g.ext.length :=
        Nat.mod_lt _ (Nat.pos_of_ne_zero hlen)
      cases hget : g.ext.get? (g.state % g.ext.length) with
      | none =>
        have := List.get?_eq_none.mp hget
        omega
      | some e =>
        rw [List.get?_eq_getElem?] at hget
        simp [PCG32K.next_u32, hlen, hget]
  · intro g hext
    simp [PCG32K.next_u32, hext]
  · intro g hext
    have hlen : g.ext.length ≠ 0 := by
      cases hg : g.ext with
      | nil => exact absurd hg hext
      | cons a l => simp [hg]
    have hidx : g.state % g.ext.length < g.ext.length :=
      Nat.mod_lt _ (Nat.pos_of_ne_zero hlen)
    cases hget : g.ext.get? (g.state % g.ext.length) with
    | none =>
      have := List.get?_eq_none.mp hget
      omega
    | some e =>
      rw [List.get?_eq_getElem?] at hget
      simp [PCG32X.next_u32, hlen, hget]

/-- `lcg64_step` with the inner wrapping mod folded into the outer one. -/
theorem lcg64_step_eq (mul add x : Nat) :
    lcg64_step mul add x = (x * mul + add) % 2 ^ 64 := by
  rw [lcg64_step, Nat.mod_add_mod]

/-- Squaring the doubling pair composes the step with itself. -/
theorem lcg64_step_sq (cm cp x : Nat) :
    lcg64_step (cm * cm % 2 ^ 64) ((cm + 1) % 2 ^ 64 * cp % 2 ^ 64) x
      = lcg64_step cm cp (lcg64_step cm cp x) := by
  simp only [lcg64_step_eq]
  have h1 : x * (cm * cm % 2 ^ 64) + (cm + 1) % 2 ^ 64 * cp % 2 ^ 64
      ≡ x * (cm * cm) + (cm + 1) * cp [MOD 2 ^ 64] :=
    ((Nat.mod_modEq _ _).mul_left x).add
      ((Nat.mod_modEq _ _).trans ((Nat.mod_modEq _ _).mul_right cp))
  have h2 : (x * cm + cp) % 2 ^ 64 * cm + cp
      ≡ (x * cm + cp) * cm + cp [MOD 2 ^ 64] :=
    ((Nat.mod_modEq _ _).mul_right cm).add_right cp
  calc (x * (cm * cm % 2 ^ 64) + (cm + 1) % 2 ^ 64 * cp % 2 ^ 64) % 2 ^ 64
      = (x * (cm * cm) + (cm + 1) * cp) % 2 ^ 64 := h1
    _ = ((x * cm + cp) * cm + cp) % 2 ^ 64 := by ring_nf
    _ = ((x * cm + cp) % 2 ^ 64 * cm + cp) % 2 ^ 64 := h2.symm

/-- Folding one set bit of `delta` into the accumulated affine pair applies one
more step. -/
theorem lcg64_acc_bit (cm cp am ap s : Nat) :
    (s * (am * cm % 2 ^ 64) + (ap * cm % 2 ^ 64 + cp) % 2 ^ 64) % 2 ^ 64
      = lcg64_step cm cp ((s * am + ap) % 2 ^ 64) := by
  rw [lcg64_step_eq]
  have h1 : s * (am * cm % 2 ^ 64) + (ap * cm % 2 ^ 64 + cp) % 2 ^ 64
      ≡ s * (am * cm) + (ap * cm + cp) [MOD 2 ^ 64] :=
    ((Nat.mod_modEq _ _).mul_left s).add
      ((Nat.mod_modEq _ _).trans ((Nat.mod_modEq _ _).add_right cp))
  have h2 : (s * am + ap) % 2 ^ 64 * cm + cp
      ≡ (s * am + ap) * cm + cp [MOD 2 ^ 64] :=
    ((Nat.mod_modEq _ _).mul_right cm).add_right cp
  calc (s * (am * cm % 2 ^ 64) + (ap * cm % 2 ^ 64 + cp) % 2 ^ 64) % 2 ^ 64
      = (s * (am * cm) + (ap * cm + cp)) % 2 ^ 64 := h1
    _ = ((s * am + ap) * cm + cp) % 2 ^ 64 := by ring_nf
    _ = ((s * am + ap) % 2 ^ 64 * cm + cp) % 2 ^ 64 := h2.symm

/-- The jump loop computes the `delta`-fold iterate of the step, applied to
the affine image of `state` under the incoming accumulator pair. -/
theorem lcg64_jump_loop_spec (delta : Nat) : ∀ cm cp am ap state : Nat,
    (state * (lcg64_jump_loop cm cp am ap delta).1
      + (lcg64_jump_loop cm cp am ap delta).2) % 2 ^ 64
      = (lcg64_step cm cp)^[delta] ((state * am + ap) % 2 ^ 64) := by
  induction delta using Nat.strong_induction_on with
  | _ delta ih =>
    intro cm cp am ap state
    rw [lcg64_jump_loop]
    by_cases h : delta = 0
    · simp [h]
    · simp only [h, dite_false]
      have hq : delta / 2 < delta := Nat.div_lt_self (Nat.pos_of_ne_zero h) one_lt_two
      have hcomp : lcg64_step (cm * cm % 2 ^ 64) ((cm + 1) % 2 ^ 64 * cp % 2 ^ 64)
          = lcg64_step cm cp ∘ lcg64_step cm cp := funext fun x => lcg64_step_sq cm cp x
      have htwo : (lcg64_step cm cp)^[2] = lcg64_step cm cp ∘ lcg64_step cm cp := by
        funext x
        simp [Function.iterate_succ_apply]
      by_cases hpar : delta % 2 = 1
      · simp only [hpar, if_pos]
        rw [ih (delta / 2) hq, hcomp, ← htwo, ← Function.iterate_mul]
        rw [lcg64_acc_bit]
        have : lcg64_step cm cp ((state * am + ap) % 2 ^ 64)
            = (lcg64_step cm cp)^[1] ((state * am + ap) % 2 ^ 64) := by
          simp
        rw [this, ← Function.iterate_add_apply]
        congr 1
        omega
      · simp only [hpar, if_neg, ite_false]
        rw [ih (delta / 2) hq, hcomp, ← htwo, ← Function.iterate_mul]
        have : delta = 2 * (delta / 2) := by omega
        conv_rhs => rw [this]

/-- The closed-form jump equals iterated stepping, for any in-range state. -/
theorem lcg64_jump_eq_iterate_aux (mul add state delta : Nat) (h : state < 2 ^ 64) :
    lcg64_jump mul add state delta = (lcg64_step mul add)^[delta] state := by
  unfold lcg64_jump
  rw [Nat.mod_add_mod, lcg64_jump_loop_spec]
  congr 1
  rw [Nat.mul_one, Nat.add_zero, Nat.mod_eq_of_lt h]

/-- The jump always lands inside the 64-bit range. -/
theorem lcg64_jump_lt (mul add state delta : Nat) :
    lcg64_jump mul add state delta < 2 ^ 64 := by
  unfold lcg64_jump
  exact Nat.mod_lt _ (by positivity)

/-- C1: for every multiplier, addend, 64-bit state and step count, the
closed-form `lcg64_jump` equals `delta` iterated applications of
`lcg64_step`; in particular with `delta = 1` it is one `lcg64_step`. -/
theorem lcg64_jump_eq_iterated_step (mul add state delta : Nat) (h : state < 2 ^ 64) :
    lcg64_jump mul add state delta = (lcg64_step mul add)^[delta] state ∧
    lcg64_jump mul add state 1 = lcg64_step mul add state := by
  refine ⟨lcg64_jump_eq_iterate_aux mul add state delta h, ?_⟩
  rw [lcg64_jump_eq_iterate_aux mul add state 1 h]
  simp

/-- C1 witness: a concrete multiplier, addend, state and step count. -/
theorem lcg64_jump_eq_iterated_step_witness :
    (12345 : Nat) < 2 ^ 64 ∧
    lcg64_jump 6364136223846793005 1442695040888963407 12345 7
      = (lcg64_step 6364136223846793005 1442695040888963407)^[7] 12345 :=
  ⟨by norm_num,
   (lcg64_jump_eq_iterated_step 6364136223846793005 1442695040888963407 12345 7
      (by norm_num)).1⟩

/-- C4: jumping by `delta1` and then by `delta2` reaches the same state as a
single jump by `delta1 + delta2`, both for the raw formula and for
`PCG32::jump`. -/
theorem lcg64_jump_compose (mul add state d1 d2 : Nat) (h : state < 2 ^ 64) :
    lcg64_jump mul add (lcg64_jump mul add state d1) d2
      = lcg64_jump mul add state (d1 + d2) ∧
    ∀ g : PCG32, g.state < 2 ^ 64 →
      (g.jump d1).jump d2 = g.jump (d1 + d2) := by
  have key : ∀ m a s, s < 2 ^ 64 →
      lcg64_jump m a (lcg64_jump m a s d1) d2 = lcg64_jump m a s (d1 + d2) := by
    intro m a s hs
    rw [lcg64_jump_eq_iterate_aux m a _ d2 (lcg64_jump_lt m a s d1),
      lcg64_jump_eq_iterate_aux m a s d1 hs, lcg64_jump_eq_iterate_aux m a s (d1 + d2) hs,
      ← Function.iterate_add_apply]
    congr 1
    omega
  refine ⟨key mul add state h, ?_⟩
  intro g hg
  unfold PCG32.jump
  simp only
  rw [key PCG_MUL_64 g.inc g.state hg]

/-- C4 witness: concrete state and deltas. -/
theorem lcg64_jump_compose_witness :
    (12345 : Nat) < 2 ^ 64 ∧
    lcg64_jump 6364136223846793005 99 (lcg64_jump 6364136223846793005 99 12345 3) 4
      = lcg64_jump 6364136223846793005 99 12345 (3 + 4) :=
  ⟨by norm_num, (lcg64_jump_compose 6364136223846793005 99 12345 3 4 (by norm_num)).1⟩

/-- The exponent regeneration loop only returns exponents in the valid range
`[-127, 0]`, and any returned exponent is either the incoming candidate or of
the freshly recomputed form `-1 + incExp - v` for some draw `v ≥ 0`. -/
theorem ieee754RegenLoop_spec (fuel : Nat) : ∀ (stream : Nat → Nat) (incExp : Int)
    (pos : Nat) (e e' : Int), ieee754RegenLoop stream incExp pos e fuel = some e' →
    (-127 ≤ e' ∧ e' ≤ 0) ∧ (e' = e ∨ ∃ v : Nat, e' = -1 + incExp - (v : Int)) := by
  induction fuel with
  | zero =>
    intro stream incExp pos e e' h
    simp only [ieee754RegenLoop] at h
    split at h
    · cases h
    · cases h
      refine ⟨by omega, Or.inl rfl⟩
  | succ fuel ih =>
    intro stream incExp pos e e' h
    simp only [ieee754RegenLoop] at h
    split at h
    · split at h
      · cases h
      · rename_i v p heq
        have hrec := ih stream incExp p (-1 + incExp - (v : Int)) e' h
        refine ⟨hrec.1, Or.inr ?_⟩
        rcases hrec.2 with h1 | ⟨v', hv'⟩
        · exact ⟨v, h1⟩
        · exact ⟨v', hv'⟩
    · cases h
      refine ⟨by omega, Or.inl rfl⟩

/-- Assembling disjoint sign, exponent and mantissa fields by `|||` is plain
addition. -/
theorem ieee754_or_decomp (s2 E m : Nat) (hE : E ≤ 127) (hm : m < 2 ^ 23) :
    (s2 * 2 ^ 31) ||| (E <<< 23) ||| m = s2 * 2 ^ 31 + E * 2 ^ 23 + m := by
  have hE23 : E * 2 ^ 23 < 2 ^ 31 := by
    calc E * 2 ^ 23 ≤ 127 * 2 ^ 23 := Nat.mul_le_mul_right _ hE
    _ < 2 ^ 31 := by norm_num
  have h1 : s2 * 2 ^ 31 ||| E <<< 23 = s2 * 2 ^ 31 + E * 2 ^ 23 := by
    rw [Nat.shiftLeft_eq, Nat.mul_comm s2 (2 ^ 31)]
    exact (Nat.mul_add_lt_is_or hE23 s2).symm
  have h2 : s2 * 2 ^ 31 + E * 2 ^ 23 = 2 ^ 23 * (s2 * 2 ^ 8 + E) := by ring
  rw [h1, h2, (Nat.mul_add_lt_is_or hm _).symm, ← h2]

/-- Value bounds for an assembled IEEE-754 single bit pattern whose exponent
field is at most 127, with mantissa 0 forced at the top exponent. -/
theorem f32_val_assembled_bounds (s2 E m : Nat) (hs : s2 ≤ 1) (hE : E ≤ 127)
    (hm : m < 2 ^ 23) (h127 : E = 127 → m = 0) :
    f32_val (s2 * 2 ^ 31 + E * 2 ^ 23 + m) ≤ 1 ∧
    -1 ≤ f32_val (s2 * 2 ^ 31 + E * 2 ^ 23 + m) ∧
    (s2 = 0 → 0 ≤ f32_val (s2 * 2 ^ 31 + E * 2 ^ 23 + m)) := by
  have hsf : (s2 * 2 ^ 31 + E * 2 ^ 23 + m) / 2 ^ 31 % 2 = s2 := by omega
  have hEf : (s2 * 2 ^ 31 + E * 2 ^ 23 + m) / 2 ^ 23 % 2 ^ 8 = E := by omega
  have hmf : (s2 * 2 ^ 31 + E * 2 ^ 23 + m) % 2 ^ 23 = m := by omega
  have hmag0 : (0 : ℚ) ≤ (if E = 0 then (m : ℚ) / 2 ^ 149
      else ((2 ^ 23 + m : Nat) : ℚ) * 2 ^ E / 2 ^ 150) := by
    split <;> positivity
  have hmag1 : (if E = 0 then (m : ℚ) / 2 ^ 149
      else ((2 ^ 23 + m : Nat) : ℚ) * 2 ^ E / 2 ^ 150) ≤ 1 := by
    split
    · rw [div_le_one (by positivity)]
      have hm1 : (m : ℚ) ≤ 2 ^ 23 := by
        have := hm.le
        exact_mod_cast this
      linarith [show (2 : ℚ) ^ 23 ≤ 2 ^ 149 by norm_num]
    · rw [div_le_one (by positivity)]
      have hnat : (2 ^ 23 + m) * 2 ^ E ≤ 2 ^ 150 := by
        by_cases hE127 : E = 127
        · rw [hE127, h127 hE127]
          norm_num
        · have h1 : 2 ^ 23 + m ≤ 2 ^ 24 := by omega
          have h2 : (2 : ℕ) ^ E ≤ 2 ^ 126 :=
            Nat.pow_le_pow_right (by norm_num) (by omega)
          have h3 : (2 ^ 23 + m) * 2 ^ E ≤ 2 ^ 24 * 2 ^ 126 := Nat.mul_le_mul h1 h2
          have h4 : (2 : ℕ) ^ 24 * 2 ^ 126 ≤ 2 ^ 150 := by norm_num
          omega
      exact_mod_cast hnat
  have hval : f32_val (s2 * 2 ^ 31 + E * 2 ^ 23 + m)
      = if s2 = 1 then -(if E = 0 then (m : ℚ) / 2 ^ 149
          else ((2 ^ 23 + m : Nat) : ℚ) * 2 ^ E / 2 ^ 150)
        else (if E = 0 then (m : ℚ) / 2 ^ 149
          else ((2 ^ 23 + m : Nat) : ℚ) * 2 ^ E / 2 ^ 150) := by
    simp only [f32_val, hsf, hEf, hmf]
  rw [hval]
  by_cases h1 : s2 = 1
  · rw [if_pos h1]
    refine ⟨by linarith, by linarith, ?_⟩
    intro h0
    omega
  · rw [if_neg h1]
    exact ⟨hmag1, by linarith, fun _ => hmag0⟩

/-- C5 witness: concrete instances, including the `K = 0` degeneration. -/
theorem pcg32k_total_and_k0_degenerates_witness :
    (PCG32K.next_u32 ⟨7, []⟩).isSome ∧
    PCG32K.next_u32 ⟨7, []⟩
      = some (xsh_rr_u64_to_u32 7, ⟨lcg64_step PCG_MUL_64 1 7, []⟩) ∧
    (PCG32X.next_u32 ⟨7, 1, [5]⟩).isSome :=
  ⟨pcg32k_total_and_k0_degenerates.1 ⟨7, []⟩,
   pcg32k_total_and_k0_degenerates.2.1 ⟨7, []⟩ rfl,
   pcg32k_total_and_k0_degenerates.2.2 ⟨7, 1, [5]⟩ (by simp)⟩

/-- Any successful result of the synthesizer decomposes into disjoint sign,
exponent and mantissa fields with a valid exponent, mantissa 0 at the top
exponent, and a clear sign bit in the unsigned mode. -/
theorem ieee754_random_f32_shape (stream : Nat → Nat) (signed : Bool) (fuel bits : Nat)
    (h : ieee754_random_f32 stream signed fuel = some bits) :
    ∃ (s2 : Nat) (e : Int) (m : Nat), s2 ≤ 1 ∧ (signed = false → s2 = 0) ∧
      -127 ≤ e ∧ e ≤ 0 ∧ m < 2 ^ 23 ∧ (e = 0 → m = 0) ∧
      bits = s2 * 2 ^ 31 + (e + 127).toNat * 2 ^ 23 + m := by
  have hr : stream 0 % 2 ^ 32 < 2 ^ 32 := Nat.mod_lt _ (by norm_num)
  have hmant : (stream 0 % 2 ^ 32) >>> 9 < 2 ^ 23 := by
    rw [Nat.shiftRight_eq_div_pow]
    omega
  simp only [ieee754_random_f32] at h
  generalize hrb : (if signed = true then stream 0 % 2 ^ 32 &&& 2 != 0
      else stream 0 % 2 ^ 32 &&& 1 != 0) = rb at h
  generalize hrest : (if signed = true then (stream 0 % 2 ^ 32) >>> 2 &&& 2 ^ 7 - 1
      else (stream 0 % 2 ^ 32) >>> 1 &&& 2 ^ 8 - 1) = rest at h
  generalize hnrb : (if signed = true then (7 : Nat) else 8) = nrb at h
  split at h
  · cases h
  · rename_i fst crb crbpos heq
    split at h
    · cases h
    · rename_i xopt e heq2
      have hcrb : 0 ≤ crb := by
        split at heq
        · cases heq
          exact Int.natCast_nonneg _
        · split at heq
          · cases heq
          · rename_i v p heq3
            cases heq
            have h1 := Int.natCast_nonneg nrb
            have h2 := Int.natCast_nonneg v
            omega
      obtain ⟨⟨hel, heu⟩, hform⟩ := ieee754RegenLoop_spec fuel stream _ crbpos _ e heq2
      have h127 : e = 0 → (stream 0 % 2 ^ 32) >>> 9 = 0 := by
        by_cases hcond : ((stream 0 % 2 ^ 32) >>> 9 = 0 ∧ rb = true)
        · intro _
          exact hcond.1
        · intro he0
          exfalso
          simp only [if_neg hcond] at hform
          rcases hform with h1 | ⟨v, hv⟩
          · omega
          · have := Int.natCast_nonneg v
            omega
      injection h with hbits
      refine ⟨if signed = true then (stream 0 % 2 ^ 32) % 2 else 0, e,
        (stream 0 % 2 ^ 32) >>> 9, ?_, ?_, hel, heu, hmant, h127, ?_⟩
      · split
        · omega
        · omega
      · intro hf
        subst hf
        simp
      · rw [← hbits]
        have hsm : (if signed = true then (stream 0 % 2 ^ 32) <<< 31 % 2 ^ 32 else 0)
            = (if signed = true then (stream 0 % 2 ^ 32) % 2 else 0) * 2 ^ 31 := by
          split
          · rw [Nat.shiftLeft_eq]
            omega
          · simp
        rw [hsm]
        exact ieee754_or_decomp _ _ _ (by omega) hmant

/-- Value bounds for any bit pattern the synthesizer can produce. -/
theorem ieee754_random_f32_val_bounds (stream : Nat → Nat) (signed : Bool) (fuel bits : Nat)
    (h : ieee754_random_f32 stream signed fuel = some bits) :
    f32_val bits ≤ 1 ∧ -1 ≤ f32_val bits ∧ (signed = false → 0 ≤ f32_val bits) := by
  obtain ⟨s2, e, m, hs2, hsf, hel, heu, hm, h127, hbits⟩ :=
    ieee754_random_f32_shape stream signed fuel bits h
  subst hbits
  have hb := f32_val_assembled_bounds s2 (e + 127).toNat m hs2 (by omega) hm
    (fun hE => h127 (by omega))
  refine ⟨hb.1, hb.2.1, fun hf => ?_⟩
  have := hsf hf
  subst this
  exact hb.2.2 rfl

/-- C6: whenever the float synthesizer terminates (returns `some` bit
pattern), the value is in `[0, 1]` for `signed = false` and in `[-1, 1]` for
`signed = true`, for every entropy stream and fuel bound. -/
theorem ieee754_random_f32_unit_range (stream : Nat → Nat) (fuel bits : Nat) :
    (ieee754_random_f32 stream false fuel = some bits →
      0 ≤ f32_val bits ∧ f32_val bits ≤ 1) ∧
    (ieee754_random_f32 stream true fuel = some bits →
      -1 ≤ f32_val bits ∧ f32_val bits ≤ 1) := by
  constructor
  · intro h
    have hb := ieee754_random_f32_val_bounds stream false fuel bits h
    exact ⟨hb.2.2 rfl, hb.1⟩
  · intro h
    have hb := ieee754_random_f32_val_bounds stream true fuel bits h
    exact ⟨hb.2.1, hb.1⟩

/-- C6 witness: the all-ones stream yields `1/256` in unsigned mode and
`-1/256` in signed mode, both inside the claimed ranges. -/
theorem ieee754_random_f32_unit_range_witness :
    (ieee754_random_f32 (fun _ => 1) false 8 = some 998244352 ∧
      0 ≤ f32_val 998244352 ∧ f32_val 998244352 ≤ 1) ∧
    (ieee754_random_f32 (fun _ => 1) true 8 = some 3145728000 ∧
      -1 ≤ f32_val 3145728000 ∧ f32_val 3145728000 ≤ 1) := by
  have h1 : ieee754_random_f32 (fun _ => 1) false 8 = some 998244352 := by decide
  have h2 : ieee754_random_f32 (fun _ => 1) true 8 = some 3145728000 := by decide
  have b1 := (ieee754_random_f32_unit_range (fun _ => 1) 8 998244352).1 h1
  have b2 := (ieee754_random_f32_unit_range (fun _ => 1) 8 3145728000).2 h2
  exact ⟨⟨h1, b1.1, b1.2⟩, ⟨h2, b2.1, b2.2⟩⟩

/-- C10: the default `Gen32::next_f32_unit` invokes the synthesizer with
`signed = true` and `next_f32_signed_unit` invokes it with `signed = false`;
consequently `next_f32_signed_unit` outputs are always non-negative, while
`next_f32_unit` can produce a value with the sign bit set (witnessed by the
all-ones stream, whose output has value `-1/256`). -/
theorem next_f32_unit_signed_flag_swap (stream : Nat → Nat) (fuel bits : Nat) :
    Gen32.next_f32_unit stream fuel = ieee754_random_f32 stream true fuel ∧
    Gen32.next_f32_signed_unit stream fuel = ieee754_random_f32 stream false fuel ∧
    (Gen32.next_f32_signed_unit stream fuel = some bits → 0 ≤ f32_val bits) ∧
    (Gen32.next_f32_unit (fun _ => 1) 8 = some 3145728000 ∧ f32_val 3145728000 < 0) := by
  refine ⟨rfl, rfl, ?_, by decide, ?_⟩
  · intro h
    exact (ieee754_random_f32_val_bounds stream false fuel bits h).2.2 rfl
  · show f32_val 3145728000 < 0
    norm_num [f32_val]

/-- C10 witness: the non-negativity conjunct at the all-ones stream. -/
theorem next_f32_unit_signed_flag_swap_witness :
    Gen32.next_f32_signed_unit (fun _ => 1) 8 = some 998244352 ∧ 0 ≤ f32_val 998244352 :=
  ⟨by decide, (next_f32_unit_signed_flag_swap (fun _ => 1) 8 998244352).2.2.1 (by decide)⟩
